import Mathlib

/-
Shallow embedding of the umi-bayes read-deduplication pipeline.

Strings are embedded as List Char.  Python floats are idealised as rationals.
Fallible Python code (raised exceptions, failed assertions) is embedded as
Option-valued functions returning none on the failing paths.
-/

/-! ## UMI validity (src/lib/umi_data.py, umi_is_good) -/

/-- Characters matched by the alphabet of the exclusion regex
built from 'ACGT' plus the pair separator: the regex matches any character
NOT in this set. -/
def allowedChar (c : Char) : Bool :=
  c == 'A' || c == 'C' || c == 'G' || c == 'T' || c == '+'

/-- umi_is_good (src/lib/umi_data.py): true iff the exclusion regex finds no
character outside the alphabet-plus-separator set. -/
def umi_is_good (umi : List Char) : Bool :=
  !(umi.any (fun c => !(allowedChar c)))

/-- A plain alphabet character (no separator). -/
def isBase (c : Char) : Bool :=
  c == 'A' || c == 'C' || c == 'G' || c == 'T'

/-- The claim C8's reading of validity: a string over the {A,C,G,T} alphabet,
optionally containing one single separator joining two such strings.  This
definition follows the claim's words, for comparison with umi_is_good. -/
def umi_claim_good (umi : List Char) : Prop :=
  (∀ c ∈ umi, isBase c = true) ∨
    (umi.count '+' = 1 ∧ ∀ c ∈ umi, isBase c = true ∨ c = '+')

instance : DecidablePred umi_claim_good :=
  fun umi => by unfold umi_claim_good; infer_instance

/-! ## UMI extraction from read names (src/lib/umi_data.py, get_umi) -/

/-- Python s.partition(sep)[0]: the prefix before the first occurrence of sep
(the whole string when sep is absent). -/
def cutAt (sep : Char) (l : List Char) : List Char :=
  l.takeWhile (fun c => c ≠ sep)

/-- Python s.rpartition(sep)[2]: the suffix after the last occurrence of sep
(the whole string when sep is absent). -/
def afterLast (sep : Char) (l : List Char) : List Char :=
  (l.reverse.takeWhile (fun c => c ≠ sep)).reverse

/-- The colon-count test of get_umi: label.count(colon) in (5, 7). -/
def label_qualifies (label : List Char) : Bool :=
  label.count ':' == 5 || label.count ':' == 7

/-- The UMI taken from a qualifying token, exactly as the source computes it:
label.partition(hash)[0].partition(slash)[0].rpartition(colon)[2] — cut at the
first hash, then at the first slash, in the whole token, then take the text
after the last remaining colon. -/
def umiOf (label : List Char) : List Char :=
  afterLast ':' (cutAt '/' (cutAt '#' label))

/-- Python umi[:truncate], with truncate = None meaning no shortening. -/
def truncTo (truncate : Option ℕ) (u : List Char) : List Char :=
  match truncate with
  | none => u
  | some t => u.take t

/-- The token loop of get_umi: return at the first qualifying token, none when
no token qualifies (the RuntimeError path).  Parameterised by the per-token
extraction so the claim's variant below can reuse the same loop. -/
def umi_scan (extract : List Char → List Char) (truncate : Option ℕ) :
    List (List Char) → Option (List Char)
  | [] => none
  | label :: rest =>
    if label_qualifies label then some (truncTo truncate (extract label))
    else umi_scan extract truncate rest

/-- get_umi (src/lib/umi_data.py): split the read name on single spaces, examine
at most the first two tokens, return the extracted UMI of the first token with
exactly 5 or exactly 7 colons; none models the RuntimeError when none matches. -/
def get_umi (read_name : List Char) (truncate : Option ℕ) : Option (List Char) :=
  umi_scan umiOf truncate ((read_name.splitOn ' ').take 2)

/-- Claim C3's description of the extraction, for comparison with the source:
the text after the last colon of the token, with the hash/slash cut applied
inside that final segment only.  This definition follows the claim's words. -/
def claim_umiOf (label : List Char) : List Char :=
  cutAt '/' (cutAt '#' (afterLast ':' label))

/-- get_umi as claim C3 describes it (same token loop, claim's extraction). -/
def get_umi_claimspec (read_name : List Char) (truncate : Option ℕ) : Option (List Char) :=
  umi_scan claim_umiOf truncate ((read_name.splitOn ' ').take 2)

/-! ## UMI universe and frequency tables (src/lib/umi_data.py) -/

/-- make_umi_list: every UMI of the given length over the alphabet, in the
itertools.product order (leftmost character varies slowest). -/
def make_umi_list : ℕ → List (List Char)
  | 0 => [[]]
  | k + 1 => ['A', 'C', 'G', 'T'].flatMap (fun c => (make_umi_list k).map (fun u => c :: u))

/-- make_umi_counts with counts = None: the zero-initialised ordered table. -/
def make_umi_counts (umis : List (List Char)) : List (List Char × ℕ) :=
  umis.map (fun u => (u, 0))

/-- The increment umi_totals[umi] += 1 with its KeyError silently passed:
increment the entry where the key is present, otherwise change nothing. -/
def incr_count (t : List (List Char × ℕ)) (umi : List Char) : List (List Char × ℕ) :=
  t.map (fun e => if e.1 = umi then (e.1, e.2 + 1) else e)

/-- The total of all counts in a table: sum(umi_totals.values()). -/
def tableSum (t : List (List Char × ℕ)) : ℕ :=
  (t.map Prod.snd).sum

/-- An input alignment record as the two passes of src/dedup.py see it.
Modelled from the spec: parse_sam.read_is_good is not under src/; per the spec
a record is usable unless unmapped, secondary, supplementary or QC-fail — an
opaque per-record property carried here as the Boolean field usable.  The read
name is the field both passes parse with get_umi. -/
structure PyRead where
  usable : Bool
  name : List Char
deriving DecidableEq

/-- The per-read loop of read_umi_counts_from_reads (src/lib/umi_data.py).
The state is none until the first read establishes the UMI length and the
zero-filled universe table; the outer none models an uncaught exception
(get_umi RuntimeError, or the inconsistent-UMI-length RuntimeError). -/
def pass1_go : List PyRead → Option (ℕ × List (List Char × ℕ)) →
    Option (Option (ℕ × List (List Char × ℕ)))
  | [], st => some st
  | r :: rs, st =>
    match get_umi r.name none with
    | none => none
    | some umi =>
      match st with
      | none =>
        pass1_go rs (some (umi.length,
          incr_count (make_umi_counts (make_umi_list umi.length)) umi))
      | some (k, t) =>
        if umi.length = k then pass1_go rs (some (k, incr_count t umi)) else none

/-- read_umi_counts_from_reads (src/lib/umi_data.py): the global frequency
table built by pass 1; none models the RuntimeError paths, including the
no-valid-reads case. -/
def read_umi_counts_from_reads (reads : List PyRead) : Option (List (List Char × ℕ)) :=
  match pass1_go reads none with
  | none => none
  | some none => none
  | some (some (_, t)) => some t

/-- The pass-2 usable-read counter of src/dedup.py: skip records failing the
usability predicate, then extract the UMI (none models the RuntimeError of
get_umi on a usable read), skip records whose UMI fails umi_is_good, and count
the rest. -/
def pass2_go : List PyRead → ℕ → Option ℕ
  | [], c => some c
  | r :: rs, c =>
    if r.usable then
      match get_umi r.name none with
      | none => none
      | some umi => if umi_is_good umi then pass2_go rs (c + 1) else pass2_go rs c
    else pass2_go rs c

/-- The value of read_counter of src/dedup.py at end of run. -/
def pass2_read_counter (reads : List PyRead) : Option ℕ :=
  pass2_go reads 0

/-! ## Apportionment (src/lib/bayes_estimate.py, apportion_counts) -/

/-- Python max(list) for a nonempty list (none on the ValueError of an empty
one): the maximal value. -/
def pyMax : List ℚ → Option ℚ
  | [] => none
  | q :: rest => some (rest.foldl max q)

/-- Python list.index(v): the index of the first element equal to v (the
length when absent, so callers must know v is present). -/
def idxOfFirst (v : ℚ) : List ℚ → ℕ
  | [] => 0
  | q :: rest => if q = v then 0 else idxOfFirst v rest + 1

/-- residuals.index(max(residuals)): the first index holding the maximum. -/
def apportionIdx (residuals : List ℚ) : ℕ :=
  match pyMax residuals with
  | none => 0
  | some v => idxOfFirst v residuals

/-- The while-loop of apportion_counts, run for the given number of steps:
each step gives one more unit to the entry with the largest residual and
decrements that residual by one. -/
def apportionLoop : ℕ → List ℚ → List ℕ → List ℕ
  | 0, _, result => result
  | k + 1, residuals, result =>
    apportionLoop k
      (residuals.set (apportionIdx residuals) (residuals.getD (apportionIdx residuals) 0 - 1))
      (result.set (apportionIdx residuals) (result.getD (apportionIdx residuals) 0 + 1))

/-- The number of positive entries of a count list. -/
def nNonzeroCounts (counts : List ℕ) : ℕ :=
  counts.countP (fun c => decide (0 < c))

/-- apportion_counts (src/lib/bayes_estimate.py).  none models the
ZeroDivisionError paths: sum(counts) = 0 (the divisor expression divides by
zero), or target_sum = 0 with counts nonempty (each quotient divides by the
zero divisor as the residual list is built).  A negative target_sum raises
nothing in the source: the loop body never runs and the seed allocation is
returned, which the embedding reproduces through the truncation in toNat.
Each entry is seeded at 1 for a positive count and 0 otherwise, and the loop
runs once per unit still to allocate. -/
def apportion_counts (counts : List ℕ) (target_sum : ℤ) : Option (List ℕ) :=
  if counts.sum = 0 ∨ (target_sum = 0 ∧ counts ≠ []) then none
  else
    let divisor : ℚ := (target_sum : ℚ) / (counts.sum : ℚ)
    let result : List ℕ := counts.map (fun c => if 0 < c then 1 else 0)
    let residuals := (counts.zip result).map (fun e => (e.1 : ℚ) / divisor - (e.2 : ℚ))
    let remaining := (target_sum - (result.sum : ℤ)).toNat
    some (apportionLoop remaining residuals result)

/-! ## Median, rounding and the Bayesian estimator (src/lib/bayes_estimate.py) -/

/-- Python list.sort(): ascending stable sort.  On rationals stability is
invisible, so any correct ascending sort embeds it. -/
def pySort (l : List ℚ) : List ℚ :=
  l.insertionSort (· ≤ ·)

/-- computeMedian (src/lib/bayes_estimate.py): sort, then take the middle
element (odd length) or the mean of the two middle elements (even length).
The source sorts its argument in place; the pure embedding returns the median
of the sorted list, and computeMedian_state below exposes the argument's
post-call state. -/
def computeMedian (l : List ℚ) : ℚ :=
  let s := pySort l
  if s.length % 2 ≠ 0 then s.getD (s.length / 2) 0
  else (s.getD (s.length / 2 - 1) 0 + s.getD (s.length / 2) 0) / 2

/-- The pair (return value, caller-visible state of the argument after the
call): computeMedian sorts its argument in place before selecting. -/
def computeMedian_state (l : List ℚ) : ℚ × List ℚ :=
  (computeMedian l, pySort l)

/-- Python round(): nearest integer, ties to even. -/
def pyRound (q : ℚ) : ℤ :=
  if q - (⌊q⌋ : ℚ) < 1 / 2 then ⌊q⌋
  else if (1 / 2 : ℚ) < q - (⌊q⌋ : ℚ) then ⌊q⌋ + 1
  else if ⌊q⌋ % 2 = 0 then ⌊q⌋ else ⌊q⌋ + 1

/-- deduplicate_counts (src/lib/bayes_estimate.py), uniform-prior path, with
the external Gibbs sampler's posterior draws passed in as pi_post (the sampler
is an external boundary).  Returns the resulting table together with the
caller-visible final state of pi_post.  none models the raised exceptions:
n = 0 (the uniform prior list divides by zero), empty pi_post (IndexError in
computeMedian), ZeroDivisionError inside apportion_counts, and the assert on a
nonpositive share for a nonzero-count key.  The final loop is the source's
zip(umi_counts.keys(), umi_counts.values(), data_dedup), which truncates to
the shortest of the three sequences. -/
def deduplicate_counts_state (umi_counts : List (String × ℕ)) (pi_post : List ℚ) :
    Option (List (String × ℕ) × List ℚ) :=
  let data := (umi_counts.filter (fun e => 0 < e.2)).map Prod.snd
  if data.length = 0 then none
  else if pi_post = [] then none
  else
    match apportion_counts data (pyRound (computeMedian pi_post * (data.sum : ℚ))) with
    | none => none
    | some data_dedup =>
      let paired := umi_counts.zip data_dedup
      if paired.all (fun e => decide (e.1.2 = 0 ∨ 0 < e.2)) then
        some (paired.map (fun e => (e.1.1, if e.1.2 = 0 then 0 else e.2)), pySort pi_post)
      else none

/-- The return value of deduplicate_counts alone. -/
def deduplicate_counts (umi_counts : List (String × ℕ)) (pi_post : List ℚ) :
    Option (List (String × ℕ)) :=
  (deduplicate_counts_state umi_counts pi_post).map Prod.fst

/-! ## Poisson-mixture estimator (src/lib/poisson_mixture.py, dedup_cluster) -/

/-- Modelled from the spec: the UmiValues container is not under src/ (only
its consumer dedup_cluster is); per the spec it is an ordered UMI-to-count
mapping whose nonzero_values method iterates the nonzero counts in table
order.  The table is embedded as an ordered association list. -/
def nonzero_values (t : List (String × ℕ)) : List ℕ :=
  (t.filter (fun e => 0 < e.2)).map Prod.snd

/-- Modelled from the spec: UmiValues.nonzero_keys — the keys with nonzero
counts, in table order. -/
def nonzero_keys (t : List (String × ℕ)) : List String :=
  (t.filter (fun e => 0 < e.2)).map Prod.fst

/-- Modelled from the spec: UmiValues.n_nonzero — how many counts are nonzero. -/
def n_nonzero (t : List (String × ℕ)) : ℕ :=
  (nonzero_values t).length

/-- The final pre-apportionment estimate of dedup_cluster
(src/lib/poisson_mixture.py).  raw_est abstracts the integer the fitted
mixture accumulates (a sum of component ranks times histogram frequencies,
whose value depends on the floating-point fit); every downstream property
proved here holds for all its values.  The histogram the source fits has one
bucket per distinct nonzero count value plus the explicit zero bucket, so its
size is dedup.length + 1; with at most two buckets the source falls back to
naive_est, and otherwise clips raw_est into [naive_est, max_est] (int(round())
of an integer is the identity). -/
def clipped_est (initial_counts : List ℕ) (raw_est : ℤ) : ℤ :=
  if initial_counts.dedup.length + 1 ≤ 2 then (initial_counts.length : ℤ)
  else if raw_est ≤ (initial_counts.length : ℤ) then (initial_counts.length : ℤ)
  else if (initial_counts.sum : ℤ) ≤ raw_est then (initial_counts.sum : ℤ)
  else raw_est

/-- dedup_cluster (src/lib/poisson_mixture.py).  none models the ValueError of
max() on an empty sequence when no count is nonzero.  When the maximum nonzero
count is 1 the input object is returned unchanged, with no fitting (the result
does not depend on raw_est).  Otherwise the clipped estimate is apportioned
over the nonzero counts and zipped back onto the nonzero keys. -/
def dedup_cluster (umi_counts : List (String × ℕ)) (raw_est : ℤ) :
    Option (List (String × ℕ)) :=
  match (nonzero_values umi_counts).max? with
  | none => none
  | some m =>
    if m = 1 then some umi_counts
    else
      (apportion_counts (nonzero_values umi_counts)
          (clipped_est (nonzero_values umi_counts) raw_est)).map
        (fun dd => (nonzero_keys umi_counts).zip dd)

/-! ## Duplicate marking (src/lib/umi_data.py, mark_duplicates) -/

/-- An alignment record as mark_duplicates sees it.  Modelled from the spec:
parse_sam.get_quality is not under src/; per the spec the aggregate quality is
the sum of per-base quality values, so records carry their per-base quality
list, plus the mutable duplicate flag. -/
structure SamRead where
  qual : List ℕ
  is_duplicate : Bool
deriving DecidableEq

/-- Modelled from the spec: parse_sam.get_quality — the aggregate base
quality, the sum of the per-base quality values. -/
def get_quality (r : SamRead) : ℕ :=
  r.qual.sum

/-- Python sorted(reads, key=get_quality) is stable; on position-tagged
records the stable sort by quality is exactly the sort by the lexicographic
(quality, original position) order, which is how it is embedded. -/
def qualityLex (a b : ℕ × SamRead) : Prop :=
  get_quality a.2 < get_quality b.2 ∨ (get_quality a.2 = get_quality b.2 ∧ a.1 ≤ b.1)

instance : DecidableRel qualityLex :=
  fun _ _ => inferInstanceAs (Decidable (_ ∨ _))

instance : IsTotal (ℕ × SamRead) qualityLex :=
  ⟨fun _ _ => by unfold qualityLex; omega⟩

instance : IsTrans (ℕ × SamRead) qualityLex :=
  ⟨fun _ _ _ => by unfold qualityLex; omega⟩

/-- The original positions of the records that sorted(reads, key=get_quality)
places in its first n entries: the n lowest-quality records, ties resolved by
original position (stability). -/
def md_chosen (reads : List SamRead) (n : ℕ) : List ℕ :=
  (((reads.enum).insertionSort qualityLex).take n).map Prod.fst

/-- mark_duplicates (src/lib/umi_data.py).  none models the assert
len(reads) >= n failing.  When n > 0, the records occupying the first n
positions of the stable quality sort (md_chosen identifies them by original
position) get their duplicate flag set; the list is returned in its original
order (the source mutates the records in place, which is embedded
positionally: each record is identified with its position). -/
def mark_duplicates (reads : List SamRead) (n : ℕ) : Option (List SamRead) :=
  if reads.length < n then none
  else if n = 0 then some reads
  else
    some (reads.enum.map (fun e =>
      if e.1 ∈ md_chosen reads n then SamRead.mk e.2.qual true else e.2))

/-! ## Helper lemmas -/

theorem mem_le_sum {l : List ℕ} {c : ℕ} (h : c ∈ l) : c ≤ l.sum := by
  induction l with
  | nil => simp at h
  | cons x xs ih =>
    rcases List.mem_cons.mp h with h | h
    · simp [h, List.sum_cons]
    · have := ih h
      simp only [List.sum_cons]
      omega

theorem apportionLoop_length : ∀ (k : ℕ) (r : List ℚ) (res : List ℕ),
    (apportionLoop k r res).length = res.length := by
  intro k
  induction k with
  | zero => intro r res; rfl
  | succ k ih =>
    intro r res
    rw [apportionLoop, ih]
    exact List.length_set res _ _

theorem foldl_max_mem (l : List ℚ) (q : ℚ) : l.foldl max q ∈ q :: l := by
  induction l generalizing q with
  | nil => simp [List.foldl]
  | cons x xs ih =>
    simp only [List.foldl_cons]
    rcases List.mem_cons.mp (ih (max q x)) with h | h
    · rw [h]
      rcases max_choice q x with h' | h' <;> simp [h']
    · simp [h]

theorem idxOfFirst_lt_length {v : ℚ} : ∀ {l : List ℚ}, v ∈ l → idxOfFirst v l < l.length := by
  intro l
  induction l with
  | nil => intro h; simp at h
  | cons x xs ih =>
    intro h
    by_cases hx : x = v
    · simp [idxOfFirst, hx]
    · rcases List.mem_cons.mp h with h' | h'
      · exact absurd h'.symm hx
      · simpa [idxOfFirst, hx] using ih h'

theorem apportionIdx_lt {r : List ℚ} (h : r ≠ []) : apportionIdx r < r.length := by
  match r with
  | [] => exact absurd rfl h
  | q :: rest =>
    simp only [apportionIdx, pyMax]
    exact idxOfFirst_lt_length (foldl_max_mem rest q)

theorem set_incr_sum : ∀ (l : List ℕ) (i : ℕ), i < l.length →
    (l.set i (l.getD i 0 + 1)).sum = l.sum + 1 := by
  intro l
  induction l with
  | nil => intro i h; simp at h
  | cons x xs ih =>
    intro i h
    match i with
    | 0 => simp [List.set, List.getD, List.sum_cons]; omega
    | j + 1 =>
      simp only [List.set, List.getD_cons_succ, List.sum_cons]
      rw [ih j (by simpa using h)]
      omega

theorem set_incr_getD_le : ∀ (l : List ℕ) (i j : ℕ),
    l.getD j 0 ≤ (l.set i (l.getD i 0 + 1)).getD j 0 := by
  intro l
  induction l with
  | nil => intro i j; simp [List.set]
  | cons x xs ih =>
    intro i j
    match i, j with
    | 0, 0 => simp [List.set, List.getD]
    | 0, j + 1 => simp [List.set, List.getD_cons_succ]
    | i + 1, 0 => simp [List.set, List.getD]
    | i + 1, j + 1 =>
      simp only [List.set, List.getD_cons_succ]
      exact ih i j

theorem apportionLoop_sum : ∀ (k : ℕ) (r : List ℚ) (res : List ℕ),
    r.length = res.length → res ≠ [] →
    (apportionLoop k r res).sum = res.sum + k := by
  intro k
  induction k with
  | zero => intro r res _ _; rfl
  | succ k ih =>
    intro r res hlen hne
    have hr : r ≠ [] := by
      intro h
      apply hne
      rw [h] at hlen
      exact List.length_eq_zero.mp hlen.symm
    have hidx : apportionIdx r < res.length := hlen ▸ apportionIdx_lt hr
    rw [apportionLoop]
    rw [ih _ _ (by simp [List.length_set, hlen]) (by
      intro h
      have := List.length_set res (apportionIdx r) (res.getD (apportionIdx r) 0 + 1)
      rw [h] at this
      simp at this
      omega)]
    rw [set_incr_sum res _ hidx]
    omega

theorem apportionLoop_getD_le : ∀ (k : ℕ) (r : List ℚ) (res : List ℕ) (j : ℕ),
    res.getD j 0 ≤ (apportionLoop k r res).getD j 0 := by
  intro k
  induction k with
  | zero => intro r res j; exact le_refl _
  | succ k ih =>
    intro r res j
    rw [apportionLoop]
    exact le_trans (set_incr_getD_le res (apportionIdx r) j) (ih _ _ j)

theorem indicator_sum (counts : List ℕ) :
    ((counts.map (fun c => if 0 < c then 1 else 0) : List ℕ)).sum = nNonzeroCounts counts := by
  induction counts with
  | nil => rfl
  | cons x xs ih =>
    simp only [List.map_cons, List.sum_cons, nNonzeroCounts, List.countP_cons] at *
    by_cases h : 0 < x <;> simp [h] <;> omega

/-! ## C1: apportion_counts -/

/-- C1 (amended): for every non-negative integer count list with at least one
positive entry and every integer target_sum with
nNonzeroCounts counts <= target_sum <= sum counts, apportion_counts returns an
integer sequence of the same length and order as counts, with every entry at
least 0 (entries are naturals: they are seeded at 0 or 1 and only ever
incremented), an entry equal to 0 only where the corresponding input count is
0, and summing exactly to target_sum.  The lower bound of the claim's range is
raised from 0 to the number of positive entries: below it the seed allocation
of one unit per positive entry already exceeds the target and is returned
unchanged (and at target_sum = 0 the source raises ZeroDivisionError). -/
theorem apportion_counts_spec (counts : List ℕ) (target_sum : ℤ)
    (hpos : 0 < nNonzeroCounts counts)
    (hlo : (nNonzeroCounts counts : ℤ) ≤ target_sum)
    (_hhi : target_sum ≤ (counts.sum : ℤ)) :
    ∃ out, apportion_counts counts target_sum = some out ∧
      out.length = counts.length ∧
      (out.sum : ℤ) = target_sum ∧
      ∀ i : ℕ, out[i]? = some 0 → counts[i]? = some 0 := by
  obtain ⟨c, hc, hcpos⟩ := List.countP_pos_iff.mp hpos
  have hcpos : 0 < c := of_decide_eq_true hcpos
  have hsum : 0 < counts.sum := lt_of_lt_of_le hcpos (mem_le_sum hc)
  have hne : counts ≠ [] := by
    intro h
    rw [h] at hc
    simp at hc
  have htpos : 0 < target_sum := by
    have : (1 : ℤ) ≤ (nNonzeroCounts counts : ℤ) := by exact_mod_cast hpos
    omega
  have hcond : ¬(counts.sum = 0 ∨ (target_sum = 0 ∧ counts ≠ [])) := by
    push_neg
    exact ⟨by omega, fun h => absurd h (by omega)⟩
  unfold apportion_counts
  rw [if_neg hcond]
  refine ⟨_, rfl, ?_, ?_, ?_⟩
  · rw [apportionLoop_length]
    simp
  · have hlen : ((counts.zip (counts.map fun c => if 0 < c then (1 : ℕ) else 0)).map
        (fun e => (e.1 : ℚ) / ((target_sum : ℚ) / (counts.sum : ℚ)) - (e.2 : ℚ))).length
        = (counts.map fun c => if 0 < c then (1 : ℕ) else 0).length := by
      simp
    have hresne : (counts.map fun c => if 0 < c then (1 : ℕ) else 0) ≠ [] := by
      simp [hne]
    rw [apportionLoop_sum _ _ _ hlen hresne, indicator_sum]
    push_cast [indicator_sum]
    omega
  · intro i hi
    have hilt : i < counts.length := by
      have := List.getElem?_eq_some.mp hi
      obtain ⟨hlt, _⟩ := this
      rw [apportionLoop_length] at hlt
      simpa using hlt
    obtain ⟨c', hc'⟩ : ∃ c', counts[i]? = some c' :=
      ⟨counts[i], List.getElem?_eq_some.mpr ⟨hilt, rfl⟩⟩
    rcases Nat.eq_zero_or_pos c' with h0 | hcp
    · rw [hc', h0]
    · exfalso
      have hind : (counts.map fun c => if 0 < c then (1 : ℕ) else 0)[i]? = some 1 := by
        rw [List.getElem?_map, hc']
        simp [hcp]
      have hind1 : (counts.map fun c => if 0 < c then (1 : ℕ) else 0).getD i 0 = 1 := by
        rw [List.getD_eq_getElem?_getD, hind]
        rfl
      have hle := apportionLoop_getD_le
        ((target_sum - (((counts.map fun c => if 0 < c then (1 : ℕ) else 0) : List ℕ).sum : ℤ)).toNat)
        ((counts.zip (counts.map fun c => if 0 < c then (1 : ℕ) else 0)).map
          (fun e => (e.1 : ℚ) / ((target_sum : ℚ) / (counts.sum : ℚ)) - (e.2 : ℚ)))
        (counts.map fun c => if 0 < c then (1 : ℕ) else 0) i
      rw [hind1] at hle
      rw [List.getD_eq_getElem?_getD, hi] at hle
      simp at hle

/-- Witness for C1 at the spec's own example: apportioning 6 over [10, 1, 1]. -/
theorem apportion_counts_spec_witness :
    ∃ out, apportion_counts [10, 1, 1] 6 = some out ∧
      out.length = [10, 1, 1].length ∧
      (out.sum : ℤ) = 6 ∧
      ∀ i : ℕ, out[i]? = some 0 → [10, 1, 1][i]? = some 0 :=
  apportion_counts_spec [10, 1, 1] 6 (by decide) (by decide) (by decide)

/-- Counterexample to C1 as stated: counts [1, 1] and target_sum 1 satisfy the
claim's hypotheses (non-negative counts, a positive entry, 0 <= 1 <= 2), yet
the result sums to 2, not 1: the seed of one unit per positive entry is never
reduced. -/
theorem apportion_counts_total_cex :
    (0 : ℤ) ≤ 1 ∧ (1 : ℤ) ≤ (([1, 1] : List ℕ).sum : ℤ) ∧
      Option.map List.sum (apportion_counts [1, 1] 1) ≠ some 1 := by
  refine ⟨by decide, by decide, ?_⟩
  with_unfolding_all decide

/-! ## C3: get_umi -/

theorem umi_scan_eq_find (extract : List Char → List Char) (truncate : Option ℕ) :
    ∀ tokens : List (List Char),
      umi_scan extract truncate tokens =
        (tokens.find? label_qualifies).map (fun l => truncTo truncate (extract l)) := by
  intro tokens
  induction tokens with
  | nil => rfl
  | cons label rest ih =>
    by_cases h : label_qualifies label
    · simp [umi_scan, List.find?_cons, h]
    · simp only [umi_scan, List.find?_cons] at *
      rw [if_neg h]
      cases hq : label_qualifies label with
      | true => exact absurd hq h
      | false => simpa using ih

/-- C3 (amended): for every read name, get_umi examines at most the first two
space-separated tokens; it fails exactly when no examined token contains
exactly 5 or exactly 7 colons, and otherwise the returned UMI comes from the
first qualifying token by first discarding everything from the first '#'
onward and then from the first '/' onward in the whole token, then taking the
text after the last remaining colon (umiOf), shortened to the first truncate
characters when truncate is given.  The claim's description — the cut applied
after taking the final colon segment — is what the counterexample below
refutes. -/
theorem get_umi_characterization (read_name : List Char) (truncate : Option ℕ) :
    (get_umi read_name truncate = none ↔
      ∀ l ∈ (read_name.splitOn ' ').take 2, label_qualifies l = false) ∧
    (∀ u, get_umi read_name truncate = some u →
      ∃ l ∈ (read_name.splitOn ' ').take 2,
        label_qualifies l = true ∧ u = truncTo truncate (umiOf l)) := by
  constructor
  · rw [get_umi, umi_scan_eq_find]
    rw [Option.map_eq_none']
    rw [List.find?_eq_none]
    constructor
    · intro h l hl
      have := h l hl
      simpa using this
    · intro h l hl
      simp [h l hl]
  · intro u hu
    rw [get_umi, umi_scan_eq_find] at hu
    obtain ⟨l, hfind, hval⟩ := Option.map_eq_some'.mp hu
    exact ⟨l, List.mem_of_find?_eq_some hfind, List.find?_some hfind, hval.symm⟩

/-- Witness for C3 at a 7-colon name carrying the UMI ACGTACGT. -/
theorem get_umi_characterization_witness :
    ∃ l ∈ ("x:y:z:a:b:c:d:ACGTACGT".data.splitOn ' ').take 2,
      label_qualifies l = true ∧ "ACGTACGT".data = truncTo none (umiOf l) :=
  (get_umi_characterization "x:y:z:a:b:c:d:ACGTACGT".data none).2 "ACGTACGT".data
    (by with_unfolding_all decide)

/-- Counterexample to C3 as stated: in the 5-colon token a:b:c:d:e#x:F the
hash sits before the last colon, so the source cuts the token to a:b:c:d:e
first and returns e, while the claim's description (cut applied inside the
text after the last colon) would return F. -/
theorem get_umi_claim_cex :
    get_umi "a:b:c:d:e#x:F".data none = some "e".data ∧
      get_umi_claimspec "a:b:c:d:e#x:F".data none = some "F".data ∧
      get_umi "a:b:c:d:e#x:F".data none ≠ get_umi_claimspec "a:b:c:d:e#x:F".data none := by
  refine ⟨?_, ?_, ?_⟩ <;> with_unfolding_all decide

/-! ## C8: umi_is_good -/

/-- C8 (amended): umi_is_good accepts exactly the strings whose every
character is one of A, C, G, T or the pair separator, with no bound on how
many separators appear or where: the regex is a pure character-class test.
The claim's stronger reading — at most one separator, joining two plain
{A,C,G,T} strings — is refuted by the counterexample below. -/
theorem umi_is_good_characterization (umi : List Char) :
    umi_is_good umi = true ↔
      ∀ c ∈ umi, c = 'A' ∨ c = 'C' ∨ c = 'G' ∨ c = 'T' ∨ c = '+' := by
  rw [umi_is_good]
  rw [Bool.not_eq_true']
  rw [List.any_eq_false]
  constructor
  · intro h c hc
    have := h c hc
    simp only [Bool.not_eq_true', Bool.not_eq_false] at this
    simp only [allowedChar, Bool.or_eq_true, beq_iff_eq] at this
    tauto
  · intro h c hc
    have := h c hc
    simp only [Bool.not_eq_true', Bool.not_eq_false]
    simp [allowedChar]
    tauto

/-- Counterexample to C8 as stated: A+C+G contains two separators yet
umi_is_good accepts it, while the claim's one-separator form rejects it. -/
theorem umi_is_good_cex :
    umi_is_good "A+C+G".data = true ∧ ¬ umi_claim_good "A+C+G".data := by
  exact ⟨by decide, by decide⟩

/-! ## C10: computeMedian sorts the caller's list -/

/-- C10: computeMedian sorts its argument list in place before selecting the
median, so after the Bayesian estimator computes its point estimate of pi the
caller's sequence of posterior draws is in ascending order — a permutation of
the original draws, not necessarily the original order (witnessed by the
concrete list [1, 0], which comes back as [0, 1]).  The third part states the
effect through deduplicate_counts_state: whenever the estimator returns, the
final state of pi_post is sorted ascending and is a permutation of the
draws passed in. -/
theorem computeMedian_sorts_draws :
    (∀ l : List ℚ, ((computeMedian_state l).2).Sorted (· ≤ ·) ∧
      ((computeMedian_state l).2).Perm l) ∧
    (computeMedian_state [1, 0]).2 ≠ [1, 0] ∧
    (∀ (t : List (String × ℕ)) (pp : List ℚ) (res : List (String × ℕ) × List ℚ),
      deduplicate_counts_state t pp = some res →
      res.2.Sorted (· ≤ ·) ∧ res.2.Perm pp) := by
  have hsp : ∀ l : List ℚ, (pySort l).Sorted (· ≤ ·) ∧ (pySort l).Perm l := by
    intro l
    exact ⟨List.sorted_insertionSort _ l, List.perm_insertionSort _ l⟩
  refine ⟨fun l => hsp l, ?_, ?_⟩
  · with_unfolding_all decide
  · intro t pp res h
    simp only [deduplicate_counts_state] at h
    split at h
    · exact absurd h (by simp)
    · split at h
      · exact absurd h (by simp)
      · split at h
        · exact absurd h (by simp)
        · split at h
          · have hres := Option.some.inj h
            rw [← hres]
            exact hsp pp
          · exact absurd h (by simp)

/-- Witness for C10: a concrete run of the estimator whose returned state of
the posterior draws [2, 1] is the sorted permutation [1, 2]. -/
theorem computeMedian_sorts_draws_witness :
    (([("A", 2)], ([1, 2] : List ℚ)) : List (String × ℕ) × List ℚ).2.Sorted (· ≤ ·) ∧
      (([("A", 2)], ([1, 2] : List ℚ)) : List (String × ℕ) × List ℚ).2.Perm [2, 1] :=
  computeMedian_sorts_draws.2.2 [("A", 1)] [2, 1] ([("A", 2)], [1, 2])
    (by with_unfolding_all decide)

/-! ## C2: the Bayesian estimator's final table -/

/-- C2 (evaluation at the failing input): on the table [A: 0, B: 2] with one
posterior draw 1/2 (so the apportionment target is round(1/2 * 2) = 1), the
source's final loop zips the full key sequence with the length-1 apportioned
sequence, truncating to one entry: the returned mapping is exactly [A: 0] —
the nonzero UMI B is absent, where the claim requires the output to cover the
same UMI universe and map B to its positive share. -/
theorem deduplicate_counts_failing_eval :
    deduplicate_counts [("A", 0), ("B", 2)] [1 / 2] = some [("A", 0)] := by
  with_unfolding_all decide

/-! ## C9, C5, C4: dedup_cluster -/

theorem nonzero_values_pos (t : List (String × ℕ)) : ∀ x ∈ nonzero_values t, 0 < x := by
  intro x hx
  unfold nonzero_values at hx
  obtain ⟨e, he, hex⟩ := List.mem_map.mp hx
  have := List.of_mem_filter he
  rw [hex] at this
  exact of_decide_eq_true this

theorem length_le_sum_of_pos : ∀ (l : List ℕ), (∀ x ∈ l, 0 < x) → l.length ≤ l.sum := by
  intro l
  induction l with
  | nil => simp
  | cons x xs ih =>
    intro h
    have hx := h x (List.mem_cons_self x xs)
    have := ih (fun y hy => h y (List.mem_cons_of_mem x hy))
    simp only [List.length_cons, List.sum_cons]
    omega

theorem foldl_max_one : ∀ (xs : List ℕ), (∀ y ∈ xs, y = 1) → xs.foldl max 1 = 1 := by
  intro xs
  induction xs with
  | nil => intro _; rfl
  | cons y ys ih =>
    intro h
    have hy := h y (List.mem_cons_self y ys)
    simp only [List.foldl_cons, hy, max_self]
    exact ih (fun z hz => h z (List.mem_cons_of_mem y hz))

/-- C9: on a UMI Count Table whose counts are all zero, dedup_cluster raises
(max() over the empty sequence of nonzero values) instead of returning an
all-zero estimate: the operation is not total at this edge of its domain. -/
theorem dedup_cluster_all_zero_raises (t : List (String × ℕ)) (raw_est : ℤ)
    (h : ∀ e ∈ t, e.2 = 0) : dedup_cluster t raw_est = none := by
  have hnz : nonzero_values t = [] := by
    unfold nonzero_values
    rw [List.filter_eq_nil_iff.mpr (fun e he => by simp [h e he])]
    rfl
  unfold dedup_cluster
  rw [hnz]
  rfl

/-- Witness for C9 at the one-entry all-zero table. -/
theorem dedup_cluster_all_zero_raises_witness :
    dedup_cluster [("A", 0)] 0 = none :=
  dedup_cluster_all_zero_raises [("A", 0)] 0 (by decide)

/-- C5: when every nonzero count is exactly 1 (and one exists, so that the
maximum of the nonzero values is 1), dedup_cluster returns the input table
unchanged; the result does not depend on raw_est, reflecting that no mixture
fitting runs on the shortcut path. -/
theorem dedup_cluster_all_ones (t : List (String × ℕ)) (raw_est : ℤ)
    (hne : nonzero_values t ≠ []) (h1 : ∀ x ∈ nonzero_values t, x = 1) :
    dedup_cluster t raw_est = some t := by
  obtain ⟨x, xs, hx⟩ := List.exists_cons_of_ne_nil hne
  have hx1 : x = 1 := h1 x (by rw [hx]; exact List.mem_cons_self x xs)
  have hmax : (nonzero_values t).max? = some 1 := by
    rw [hx]
    show some (xs.foldl max x) = some 1
    rw [hx1, foldl_max_one xs (fun y hy => h1 y (by rw [hx]; exact List.mem_cons_of_mem x hy))]
  unfold dedup_cluster
  rw [hmax]
  rfl

/-- Witness for C5 at a table with counts 1 and 0. -/
theorem dedup_cluster_all_ones_witness :
    dedup_cluster [("A", 1), ("B", 0)] 7 = some [("A", 1), ("B", 0)] :=
  dedup_cluster_all_ones [("A", 1), ("B", 0)] 7 (by decide) (by decide)

/-- C4: for every table with at least one nonzero count and every value of the
mixture fit's raw accumulated estimate, the final pre-apportionment integer
estimate of dedup_cluster — clipped_est, the target dedup_cluster hands to
apportion_counts — is at least the number of nonzero UMIs and at most the sum
of the nonzero counts. -/
theorem dedup_cluster_estimate_bounds (t : List (String × ℕ)) (raw_est : ℤ)
    (_hne : nonzero_values t ≠ []) :
    (n_nonzero t : ℤ) ≤ clipped_est (nonzero_values t) raw_est ∧
      clipped_est (nonzero_values t) raw_est ≤ ((nonzero_values t).sum : ℤ) := by
  have hls : (nonzero_values t).length ≤ (nonzero_values t).sum :=
    length_le_sum_of_pos _ (nonzero_values_pos t)
  have hls' : ((nonzero_values t).length : ℤ) ≤ ((nonzero_values t).sum : ℤ) := by
    exact_mod_cast hls
  unfold clipped_est n_nonzero
  split_ifs <;> constructor <;> omega

/-- Witness for C4 at the table [A: 2, B: 1] with raw estimate 100 (clipped to
the maximum 3, between 2 nonzero UMIs and total 3). -/
theorem dedup_cluster_estimate_bounds_witness :
    (n_nonzero [("A", 2), ("B", 1)] : ℤ) ≤
        clipped_est (nonzero_values [("A", 2), ("B", 1)]) 100 ∧
      clipped_est (nonzero_values [("A", 2), ("B", 1)]) 100 ≤
        ((nonzero_values [("A", 2), ("B", 1)]).sum : ℤ) :=
  dedup_cluster_estimate_bounds [("A", 2), ("B", 1)] 100 (by decide)

/-! ## C7: pass-1 table total versus pass-2 usable-read counter -/

theorem count_map_cons_self (c : Char) (L : List (List Char)) (u : List Char) :
    (L.map (fun l => c :: l)).count (c :: u) = L.count u := by
  induction L with
  | nil => rfl
  | cons x xs ih =>
    rw [List.map_cons, List.count_cons, List.count_cons, ih]
    by_cases h : x = u
    · have h1 : (x == u) = true := beq_iff_eq.mpr h
      have h2 : ((c :: x : List Char) == c :: u) = true := beq_iff_eq.mpr (by rw [h])
      rw [h1, h2]
    · have h1 : (x == u) = false := beq_eq_false_iff_ne.mpr h
      have h2 : ((c :: x : List Char) == c :: u) = false := beq_eq_false_iff_ne.mpr (by
        intro hcc
        exact h ((List.cons.injEq _ _ _ _).mp hcc).2)
      rw [h1, h2]

theorem count_map_cons_ne (c d : Char) (hcd : c ≠ d) (L : List (List Char)) (u : List Char) :
    (L.map (fun l => c :: l)).count (d :: u) = 0 := by
  rw [List.count_eq_zero]
  intro hmem
  obtain ⟨l, _, hl⟩ := List.mem_map.mp hmem
  exact hcd ((List.cons.injEq _ _ _ _).mp hl).1

theorem count_map_cons_nil (c : Char) (L : List (List Char)) :
    (L.map (fun l => c :: l)).count [] = 0 := by
  rw [List.count_eq_zero]
  intro hmem
  obtain ⟨l, _, hl⟩ := List.mem_map.mp hmem
  exact List.cons_ne_nil c l hl

theorem count_make_umi_list_one : ∀ (k : ℕ) (u : List Char), u.length = k →
    (∀ ch ∈ u, ch ∈ (['A', 'C', 'G', 'T'] : List Char)) →
    (make_umi_list k).count u = 1 := by
  intro k
  induction k with
  | zero =>
    intro u hlen _
    rw [List.length_eq_zero] at hlen
    subst hlen
    rfl
  | succ k ih =>
    intro u hlen hb
    match u with
    | d :: u' =>
      have hd : d ∈ (['A', 'C', 'G', 'T'] : List Char) := hb d (List.mem_cons_self d u')
      have hu' : ∀ ch ∈ u', ch ∈ (['A', 'C', 'G', 'T'] : List Char) :=
        fun ch hch => hb ch (List.mem_cons_of_mem d hch)
      have ih' := ih u' (by simpa using hlen) hu'
      rw [make_umi_list, List.count_flatMap]
      fin_cases hd
      · rw [List.map_cons, List.map_cons, List.map_cons, List.map_cons, List.map_nil]
        simp only [Function.comp_apply]
        rw [count_map_cons_self, count_map_cons_ne _ _ (by decide),
          count_map_cons_ne _ _ (by decide), count_map_cons_ne _ _ (by decide)]
        simp [ih']
      · rw [List.map_cons, List.map_cons, List.map_cons, List.map_cons, List.map_nil]
        simp only [Function.comp_apply]
        rw [count_map_cons_ne _ _ (by decide), count_map_cons_self,
          count_map_cons_ne _ _ (by decide), count_map_cons_ne _ _ (by decide)]
        simp [ih']
      · rw [List.map_cons, List.map_cons, List.map_cons, List.map_cons, List.map_nil]
        simp only [Function.comp_apply]
        rw [count_map_cons_ne _ _ (by decide), count_map_cons_ne _ _ (by decide),
          count_map_cons_self, count_map_cons_ne _ _ (by decide)]
        simp [ih']
      · rw [List.map_cons, List.map_cons, List.map_cons, List.map_cons, List.map_nil]
        simp only [Function.comp_apply]
        rw [count_map_cons_ne _ _ (by decide), count_map_cons_ne _ _ (by decide),
          count_map_cons_ne _ _ (by decide), count_map_cons_self]
        simp [ih']

theorem incr_count_keys (t : List (List Char × ℕ)) (u : List Char) :
    (incr_count t u).map Prod.fst = t.map Prod.fst := by
  unfold incr_count
  rw [List.map_map]
  apply List.map_congr_left
  intro e _
  by_cases h : e.1 = u <;> simp [h]

theorem tableSum_cons (e : List Char × ℕ) (t : List (List Char × ℕ)) :
    tableSum (e :: t) = e.2 + tableSum t := by
  simp [tableSum]

theorem incr_count_cons (e : List Char × ℕ) (t : List (List Char × ℕ)) (u : List Char) :
    incr_count (e :: t) u = (if e.1 = u then (e.1, e.2 + 1) else e) :: incr_count t u := rfl

theorem tableSum_incr_count (t : List (List Char × ℕ)) (u : List Char) :
    tableSum (incr_count t u) = tableSum t + (t.map Prod.fst).count u := by
  induction t with
  | nil => rfl
  | cons e es ih =>
    rw [incr_count_cons, List.map_cons, List.count_cons]
    by_cases h : e.1 = u
    · have hbeq : (e.1 == u) = true := beq_iff_eq.mpr h
      rw [if_pos h, hbeq, tableSum_cons, tableSum_cons, ih]
      simp only [if_true]
      omega
    · have hbeq : (e.1 == u) = false := beq_eq_false_iff_ne.mpr h
      rw [if_neg h, hbeq, tableSum_cons, tableSum_cons, ih]
      simp only [Bool.false_eq_true, if_false]
      omega

theorem make_umi_counts_keys (umis : List (List Char)) :
    (make_umi_counts umis).map Prod.fst = umis := by
  induction umis with
  | nil => rfl
  | cons u us ih =>
    show u :: (make_umi_counts us).map Prod.fst = u :: us
    rw [ih]

theorem tableSum_make_umi_counts (umis : List (List Char)) :
    tableSum (make_umi_counts umis) = 0 := by
  induction umis with
  | nil => rfl
  | cons u us ih =>
    show tableSum ((u, 0) :: make_umi_counts us) = 0
    rw [tableSum_cons, ih]

theorem umi_is_good_of_base (u : List Char)
    (h : ∀ ch ∈ u, ch ∈ (['A', 'C', 'G', 'T'] : List Char)) : umi_is_good u = true := by
  rw [umi_is_good, Bool.not_eq_true', List.any_eq_false]
  intro c hc
  have := h c hc
  fin_cases this <;> decide

theorem pass_inv : ∀ (reads : List PyRead) (k : ℕ) (t : List (List Char × ℕ)) (c : ℕ)
    (st' : Option (ℕ × List (List Char × ℕ))),
    (∀ r ∈ reads, r.usable = true) →
    (∀ r ∈ reads, ∀ ch ∈ (get_umi r.name none).getD [],
      ch ∈ (['A', 'C', 'G', 'T'] : List Char)) →
    t.map Prod.fst = make_umi_list k →
    pass1_go reads (some (k, t)) = some st' →
    ∃ t', st' = some (k, t') ∧ t'.map Prod.fst = make_umi_list k ∧
      ∃ m, tableSum t' = tableSum t + m ∧ pass2_go reads c = some (c + m) := by
  intro reads
  induction reads with
  | nil =>
    intro k t c st' _ _ hkeys h
    simp only [pass1_go, Option.some.injEq] at h
    exact ⟨t, h.symm, hkeys, 0, by omega, by simp [pass2_go]⟩
  | cons r rs ih =>
    intro k t c st' husable hbase hkeys h
    simp only [pass1_go] at h
    cases hgu : get_umi r.name none with
    | none => rw [hgu] at h; exact absurd h (by simp)
    | some umi =>
      rw [hgu] at h
      simp only [] at h
      by_cases hlen : umi.length = k
      case neg => rw [if_neg hlen] at h; exact absurd h (by simp)
      rw [if_pos hlen] at h
      have hbase_r : ∀ ch ∈ umi, ch ∈ (['A', 'C', 'G', 'T'] : List Char) := by
        have := hbase r (List.mem_cons_self r rs)
        rwa [hgu, Option.getD_some] at this
      have hkeys' : (incr_count t umi).map Prod.fst = make_umi_list k := by
        rw [incr_count_keys, hkeys]
      obtain ⟨t', hst', hk', m, hsum, hp2⟩ := ih k (incr_count t umi) (c + 1) st'
        (fun x hx => husable x (List.mem_cons_of_mem r hx))
        (fun x hx => hbase x (List.mem_cons_of_mem r hx)) hkeys' h
      refine ⟨t', hst', hk', m + 1, ?_, ?_⟩
      · rw [hsum, tableSum_incr_count, hkeys, count_make_umi_list_one k umi hlen hbase_r]
        omega
      · simp only [pass2_go, husable r (List.mem_cons_self r rs), if_true, hgu,
          umi_is_good_of_base umi hbase_r]
        rw [hp2]
        exact congrArg some (by omega)

/-- C7 (amended): for every input stream processed without a UMI-table file in
which every record is usable and every extracted UMI consists only of the
characters A, C, G, T, the sum of the pass-1 frequency-table counts equals the
pass-2 usable-read counter, so the orchestrator's assertion comparing the two
holds.  The restriction is forced: pass 1 counts reads without applying the
usability predicate (the counterexample below), and a UMI containing the pair
separator passes the pass-2 validity check but is skipped by the pass-1
universe table. -/
theorem pass_totals_agree (reads : List PyRead) (t : List (List Char × ℕ))
    (husable : ∀ r ∈ reads, r.usable = true)
    (hbase : ∀ r ∈ reads, ∀ ch ∈ (get_umi r.name none).getD [],
      ch ∈ (['A', 'C', 'G', 'T'] : List Char))
    (h : read_umi_counts_from_reads reads = some t) :
    pass2_read_counter reads = some (tableSum t) := by
  unfold read_umi_counts_from_reads at h
  cases reads with
  | nil => simp [pass1_go] at h
  | cons r rs =>
    simp only [pass1_go] at h
    cases hgu : get_umi r.name none with
    | none => rw [hgu] at h; simp at h
    | some umi =>
      rw [hgu] at h
      simp only [] at h
      cases hp1 : pass1_go rs
          (some (umi.length, incr_count (make_umi_counts (make_umi_list umi.length)) umi)) with
      | none => rw [hp1] at h; simp at h
      | some st' =>
        rw [hp1] at h
        have hbase_r : ∀ ch ∈ umi, ch ∈ (['A', 'C', 'G', 'T'] : List Char) := by
          have := hbase r (List.mem_cons_self r rs)
          rwa [hgu, Option.getD_some] at this
        have hkeys : (incr_count (make_umi_counts (make_umi_list umi.length)) umi).map Prod.fst
            = make_umi_list umi.length := by
          rw [incr_count_keys, make_umi_counts_keys]
        obtain ⟨t', hst', _, m, hsum, hp2⟩ := pass_inv rs umi.length
          (incr_count (make_umi_counts (make_umi_list umi.length)) umi) 1 st'
          (fun x hx => husable x (List.mem_cons_of_mem r hx))
          (fun x hx => hbase x (List.mem_cons_of_mem r hx)) hkeys hp1
        subst hst'
        simp only [Option.some.injEq] at h
        subst h
        have hsum1 : tableSum (incr_count (make_umi_counts (make_umi_list umi.length)) umi)
            = 1 := by
          rw [tableSum_incr_count, make_umi_counts_keys, tableSum_make_umi_counts,
            count_make_umi_list_one umi.length umi rfl hbase_r]
        unfold pass2_read_counter
        simp only [pass2_go, husable r (List.mem_cons_self r rs), if_true, hgu,
          umi_is_good_of_base umi hbase_r]
        rw [hp2]
        exact congrArg some (by omega)

/-- Witness for C7 at a one-read stream: a usable read whose UMI is A gives a
pass-1 table [A: 1, C: 0, G: 0, T: 0] with total 1 and a pass-2 counter 1. -/
theorem pass_totals_agree_witness :
    pass2_read_counter [PyRead.mk true "a:b:c:d:e:A".data] =
      some (tableSum [(['A'], 1), (['C'], 0), (['G'], 0), (['T'], 0)]) :=
  pass_totals_agree [PyRead.mk true "a:b:c:d:e:A".data]
    [(['A'], 1), (['C'], 0), (['G'], 0), (['T'], 0)]
    (by decide) (by with_unfolding_all decide) (by with_unfolding_all decide)

/-- Counterexample to C7 as stated: a stream whose single record is not usable
(for example a secondary alignment) but carries the valid UMI A is counted by
pass 1 — which never applies the usability predicate — and skipped by pass 2,
so the two independently computed totals are 1 and 0 and the assertion fails. -/
theorem pass_totals_cex :
    Option.map tableSum (read_umi_counts_from_reads [PyRead.mk false "a:b:c:d:e:A".data])
        = some 1 ∧
      pass2_read_counter [PyRead.mk false "a:b:c:d:e:A".data] = some 0 ∧
      Option.map tableSum (read_umi_counts_from_reads [PyRead.mk false "a:b:c:d:e:A".data])
        ≠ pass2_read_counter [PyRead.mk false "a:b:c:d:e:A".data] := by
  refine ⟨?_, ?_, ?_⟩ <;> with_unfolding_all decide

/-! ## C6: mark_duplicates -/

theorem mem_of_getElem_some {α : Type} {l : List α} {i : ℕ} {a : α} (h : l[i]? = some a) :
    a ∈ l := by
  obtain ⟨hi, he⟩ := List.getElem?_eq_some.mp h
  rw [← he]
  exact List.getElem_mem hi

/-- C6: choose_duplicates with n at most the record count and no record
pre-flagged: the result exists (the assert passes), keeps the collection's
length and per-position records (same per-base qualities at every position),
is the identity when n = 0, flags exactly n records, and the flagged set is
exactly the n lowest by ascending aggregate quality with ties broken by
original position (stability): every flagged record sits strictly below every
unflagged one in the (quality, position) order.  In particular, for records
with distinct qualities 10, 30, 20 and n = 2, in any input order, the
quality-30 record is the unique unflagged one, since it can never sit below
an unflagged record. -/
theorem mark_duplicates_spec (reads : List SamRead) (n : ℕ)
    (hn : n ≤ reads.length)
    (hflags : ∀ r ∈ reads, r.is_duplicate = false) :
    ∃ out, mark_duplicates reads n = some out ∧
      out.length = reads.length ∧
      (n = 0 → out = reads) ∧
      (∀ i : ℕ, (out[i]?).map SamRead.qual = (reads[i]?).map SamRead.qual) ∧
      out.countP (fun r => r.is_duplicate) = n ∧
      (∀ i j : ℕ, ∀ ri rj : SamRead, out[i]? = some ri → out[j]? = some rj →
        ri.is_duplicate = true → rj.is_duplicate = false →
        get_quality ri < get_quality rj ∨
          (get_quality ri = get_quality rj ∧ i < j)) := by
  rcases Nat.eq_zero_or_pos n with hn0 | hnpos
  · subst hn0
    refine ⟨reads, ?_, rfl, fun _ => rfl, fun i => rfl, ?_, ?_⟩
    · unfold mark_duplicates
      rw [if_neg (by omega), if_pos rfl]
    · rw [List.countP_eq_zero]
      intro r hr
      simp [hflags r hr]
    · intro i j ri rj hi hj hdi hdj
      exfalso
      have hri : ri ∈ reads := mem_of_getElem_some hi
      rw [hflags ri hri] at hdi
      exact Bool.noConfusion hdi
  · have hcond1 : ¬(reads.length < n) := by omega
    have hcond2 : n ≠ 0 := by omega
    have hperm : ((reads.enum).insertionSort qualityLex).Perm reads.enum :=
      List.perm_insertionSort _ _
    have hsorted : List.Pairwise qualityLex ((reads.enum).insertionSort qualityLex) :=
      List.sorted_insertionSort _ _
    have hSlen : ((reads.enum).insertionSort qualityLex).length = reads.length :=
      hperm.length_eq.trans List.enum_length
    have hnodup : (((reads.enum).insertionSort qualityLex).map Prod.fst).Nodup := by
      have hfp := hperm.map Prod.fst
      rw [List.enum_map_fst] at hfp
      exact hfp.nodup_iff.mpr (List.nodup_range _)
    have hsplit : ((reads.enum).insertionSort qualityLex).map Prod.fst =
        md_chosen reads n ++ (((reads.enum).insertionSort qualityLex).drop n).map Prod.fst := by
      rw [md_chosen, ← List.map_append, List.take_append_drop]
    have hdisj : ∀ a ∈ (((reads.enum).insertionSort qualityLex).drop n).map Prod.fst,
        a ∉ md_chosen reads n := by
      rw [hsplit] at hnodup
      have hd := (List.nodup_append.mp hnodup).2.2
      intro a ha hc
      exact hd hc ha
    have hout : ∀ i : ℕ,
        (reads.enum.map (fun e =>
          if e.1 ∈ md_chosen reads n then SamRead.mk e.2.qual true else e.2))[i]?
        = (reads[i]?).map
            (fun a => if i ∈ md_chosen reads n then SamRead.mk a.qual true else a) := by
      intro i
      rw [List.getElem?_map, List.getElem?_enum]
      cases reads[i]? <;> rfl
    unfold mark_duplicates
    rw [if_neg hcond1, if_neg hcond2]
    refine ⟨_, rfl, ?_, fun h0 => absurd h0 hcond2, ?_, ?_, ?_⟩
    · rw [List.length_map, List.enum_length]
    · intro i
      rw [hout]
      cases reads[i]? with
      | none => rfl
      | some a =>
        show some (if i ∈ md_chosen reads n then SamRead.mk a.qual true else a).qual = _
        split_ifs <;> rfl
    · rw [List.countP_map]
      rw [List.countP_congr (q := fun e => decide (e.1 ∈ md_chosen reads n)) ?_]
      · rw [show List.countP (fun e : ℕ × SamRead => decide (e.1 ∈ md_chosen reads n)) reads.enum
            = List.countP (fun i => decide (i ∈ md_chosen reads n))
                (reads.enum.map Prod.fst) by
          rw [List.countP_map]
          rfl]
        rw [List.Perm.countP_eq _ ((hperm.map Prod.fst).symm)]
        rw [hsplit, List.countP_append]
        rw [List.countP_eq_length.mpr (fun a ha => by simpa using ha)]
        rw [List.countP_eq_zero.mpr (fun a ha => by simpa using hdisj a ha)]
        rw [md_chosen, List.length_map, List.length_take, hSlen]
        omega
      · intro e he
        simp only [Function.comp_apply]
        by_cases hc : e.1 ∈ md_chosen reads n
        · simp [hc]
        · have he2 : e.2 ∈ reads :=
            mem_of_getElem_some (List.mem_enum_iff_getElem?.mp he)
          simp [hc, hflags e.2 he2]
    · intro i j ri rj hi hj hdi hdj
      rw [hout] at hi hj
      cases hai : reads[i]? with
      | none => rw [hai] at hi; exact Option.noConfusion hi
      | some ai =>
      cases haj : reads[j]? with
      | none => rw [haj] at hj; exact Option.noConfusion hj
      | some aj =>
      rw [hai, Option.map_some'] at hi
      rw [haj, Option.map_some'] at hj
      have hri := (Option.some.inj hi).symm
      have hrj := (Option.some.inj hj).symm
      have hichosen : i ∈ md_chosen reads n := by
        by_contra hc
        rw [if_neg hc] at hri
        have hmem : ai ∈ reads := mem_of_getElem_some hai
        rw [hri, hflags ai hmem] at hdi
        exact Bool.noConfusion hdi
      have hjnot : j ∉ md_chosen reads n := by
        intro hc
        rw [if_pos hc] at hrj
        rw [hrj] at hdj
        exact Bool.noConfusion hdj
      have hqi : get_quality ri = get_quality ai := by
        rw [hri, if_pos hichosen]
        rfl
      have hqj : rj = aj := by
        rw [hrj, if_neg hjnot]
      have hichosen' := hichosen
      rw [md_chosen] at hichosen'
      obtain ⟨p, hptake, hpfst⟩ := List.mem_map.mp hichosen'
      have hpS : p ∈ (reads.enum).insertionSort qualityLex := List.take_subset n _ hptake
      have hpE : p ∈ reads.enum := hperm.mem_iff.mp hpS
      have hpval : reads[p.1]? = some p.2 := List.mem_enum_iff_getElem?.mp hpE
      rw [hpfst, hai] at hpval
      have hp2 : p.2 = ai := (Option.some.inj hpval).symm
      have hjE : ((j, aj) : ℕ × SamRead) ∈ reads.enum :=
        List.mem_enum_iff_getElem?.mpr (by simpa using haj)
      have hjS : ((j, aj) : ℕ × SamRead) ∈ (reads.enum).insertionSort qualityLex :=
        hperm.mem_iff.mpr hjE
      have hjtd : ((j, aj) : ℕ × SamRead) ∈
          ((reads.enum).insertionSort qualityLex).take n ++
            ((reads.enum).insertionSort qualityLex).drop n := by
        rw [List.take_append_drop]
        exact hjS
      have hjdrop : ((j, aj) : ℕ × SamRead) ∈ ((reads.enum).insertionSort qualityLex).drop n := by
        rcases List.mem_append.mp hjtd with h | h
        · exact absurd (by rw [md_chosen]; exact List.mem_map.mpr ⟨(j, aj), h, rfl⟩) hjnot
        · exact h
      have hPW : List.Pairwise qualityLex
          (((reads.enum).insertionSort qualityLex).take n ++
            ((reads.enum).insertionSort qualityLex).drop n) := by
        rw [List.take_append_drop]
        exact hsorted
      have hpair : qualityLex p (j, aj) :=
        (List.pairwise_append.mp hPW).2.2 p hptake (j, aj) hjdrop
      unfold qualityLex at hpair
      rw [hp2, hpfst] at hpair
      have hij : i ≠ j := fun he => hjnot (he ▸ hichosen)
      rw [hqi, hqj]
      rcases hpair with h | ⟨heq, hle⟩
      · exact Or.inl h
      · exact Or.inr ⟨heq, lt_of_le_of_ne hle hij⟩

/-- Witness for C6 at the claim's example: qualities 10, 30, 20 with n = 2. -/
theorem mark_duplicates_spec_witness :
    ∃ out, mark_duplicates
        [SamRead.mk [10] false, SamRead.mk [30] false, SamRead.mk [20] false] 2 = some out ∧
      out.length = [SamRead.mk [10] false, SamRead.mk [30] false, SamRead.mk [20] false].length ∧
      (2 = 0 → out = [SamRead.mk [10] false, SamRead.mk [30] false, SamRead.mk [20] false]) ∧
      (∀ i : ℕ, (out[i]?).map SamRead.qual =
        ([SamRead.mk [10] false, SamRead.mk [30] false,
          SamRead.mk [20] false][i]?).map SamRead.qual) ∧
      out.countP (fun r => r.is_duplicate) = 2 ∧
      (∀ i j : ℕ, ∀ ri rj : SamRead, out[i]? = some ri → out[j]? = some rj →
        ri.is_duplicate = true → rj.is_duplicate = false →
        get_quality ri < get_quality rj ∨
          (get_quality ri = get_quality rj ∧ i < j)) :=
  mark_duplicates_spec
    [SamRead.mk [10] false, SamRead.mk [30] false, SamRead.mk [20] false] 2
    (by decide) (by decide)

/-- Witness for C8 at the paired UMI ACGT+ACGT. -/
theorem umi_is_good_characterization_witness :
    umi_is_good "ACGT+ACGT".data = true ↔
      ∀ c ∈ "ACGT+ACGT".data, c = 'A' ∨ c = 'C' ∨ c = 'G' ∨ c = 'T' ∨ c = '+' :=
  umi_is_good_characterization "ACGT+ACGT".data
